import Mathlib

/-!
Shallow embedding of the json-parser repository (src/src/lexer.rs and
src/src/parser.rs) together with proofs about the claims of its
specification.  Pure Rust functions become Lean functions; the two
stateful loops (the character loop of the lexer and the cursor-driven
recursive descent of the parser) become explicitly recursive functions
over the remaining input and the cursor index.  Machine floats are
modelled as rationals and the platform float-text parser is a parameter
of the lexer.
-/

set_option autoImplicit false

namespace JsonParser

/-- Character classifiers used by the lexer.  The Rust source calls the
Unicode classifiers char::is_alphabetic, char::is_alphanumeric and
char::is_numeric; the embedding is parametrised over them so that every
theorem quantified over the classifier holds for any choice, the Unicode
one included. -/
structure CharClass where
  isAlphabetic : Char → Bool
  isAlphanumeric : Char → Bool
  isNumericChar : Char → Bool

/-- ASCII instantiation of the classifiers, used on the concrete inputs of
this development, all of which are ASCII, where the Rust Unicode
classifiers agree with these. -/
def ccAscii : CharClass :=
  ⟨Char.isAlpha, Char.isAlphanum, fun c => c.isDigit⟩

/-- Tokens of src/src/lexer.rs.  Every variant carries the 1-based source
line; the f64 payload of Number is modelled as a rational. -/
inductive Token where
  | Str : String → Nat → Token
  | Number : Rat → Nat → Token
  | LeftBracket : Nat → Token
  | RightBracket : Nat → Token
  | LeftBrace : Nat → Token
  | RightBrace : Nat → Token
  | Comma : Nat → Token
  | Colon : Nat → Token
  | Bool : Bool → Nat → Token
  | Null : Nat → Token
  | EOF : Nat → Token
deriving DecidableEq

/-- The line annotation carried by a token. -/
def Token.line : Token → Nat
  | .Str _ l => l
  | .Number _ l => l
  | .LeftBracket l => l
  | .RightBracket l => l
  | .LeftBrace l => l
  | .RightBrace l => l
  | .Comma l => l
  | .Colon l => l
  | .Bool _ l => l
  | .Null l => l
  | .EOF l => l

/-- Whether a token is the EndOfInput token.  Declared outside the Token
namespace because the Bool return type would otherwise resolve to the
Token.Bool constructor. -/
def tokenIsEOF : Token → Bool
  | .EOF _ => true
  | _ => false

/-- The Display implementation for Token in src/src/lexer.rs. -/
def Token.display : Token → String
  | .Str s l => "\x27" ++ s ++ "\x27 at line: " ++ toString l
  | .Number n l => "\x27" ++ toString n ++ "\x27 at line: " ++ toString l
  | .LeftBracket l => "\x27[\x27 at line: " ++ toString l
  | .RightBracket l => "\x27]\x27 at line: " ++ toString l
  | .LeftBrace l => "\x27\x7b\x27 at line: " ++ toString l
  | .RightBrace l => "\x27\x7d\x27 at line: " ++ toString l
  | .Comma l => "\x27,\x27 at line: " ++ toString l
  | .Colon l => "\x27:\x27 at line: " ++ toString l
  | .Bool b l => "\x27" ++ toString b ++ "\x27 at line: " ++ toString l
  | .Null l => "\x27null\x27 at line: " ++ toString l
  | .EOF l => "\x27EOF\x27 at line: " ++ toString l

/-- The LexError enum of src/src/lexer.rs; each variant carries the
formatted diagnostic string built at the error site. -/
inductive LexError where
  | UnterminatedString : String → LexError
  | UnknownSymbol : String → LexError
  | UnknownLiteral : String → LexError
  | InvalidNumber : String → LexError
deriving DecidableEq

/-- The two-character escape mapping of the string branch of Lexer::lex:
n, t, r and backslash map to their control characters, every other
character is copied through as itself. -/
def escMap : Char → Char
  | 'n' => '\n'
  | 't' => '\t'
  | 'r' => '\r'
  | '\\' => '\\'
  | c => c

/-- Models the inner string-scanning loop of Lexer::lex (src/src/lexer.rs
lines 77-98).  Returns the accumulated characters, the updated line
counter and the remaining input after the closing quote, or none when the
input ends first.  The escape branch of the Rust loop only peeks at the
character after the backslash and does not consume it, so the model
recurses on the rest with that character still in front. -/
def scanString : List Char → Nat → Option (List Char × Nat × List Char)
  | [], _ => none
  | c :: rest, line =>
    if c = '\n' then
      (scanString rest (line + 1)).map (fun r => ('\n' :: r.1, r.2))
    else if c = '\\' then
      match rest.head? with
      | none => scanString rest line
      | some d => (scanString rest line).map (fun r => (escMap d :: r.1, r.2))
    else if c = '"' then
      some ([], line, rest)
    else
      (scanString rest line).map (fun r => (c :: r.1, r.2))

/-- The continuation test of the keyword branch of Lexer::lex. -/
def identCont (cc : CharClass) (d : Char) : Bool :=
  cc.isAlphanumeric d || d = '_'

/-- The continuation test of the number branch of Lexer::lex. -/
def numCont (cc : CharClass) (d : Char) : Bool :=
  cc.isNumericChar d || d = '.' || d = 'e' || d = 'E' || d = '+' || d = '-'

/-- Models the character loop of Lexer::lex (src/src/lexer.rs lines
65-173), one recursive call per loop iteration.  The arguments are the
remaining input, the line counter and the tokens pushed so far; np is the
platform float-text parser that the Rust number branch defers to.  The
fuel argument bounds the number of iterations; since every iteration
consumes at least one character, lex below supplies enough fuel for the
none case to be unreachable (lexLoop_total). -/
def lexLoop (cc : CharClass) (np : String → Option Rat) :
    Nat → List Char → Nat → List Token → Option (Except LexError (List Token))
  | 0, _, _, _ => none
  | _ + 1, [], line, acc => some (.ok (acc ++ [Token.EOF line]))
  | fuel + 1, c :: rest, line, acc =>
    if c = '[' then lexLoop cc np fuel rest line (acc ++ [Token.LeftBracket line])
    else if c = ']' then lexLoop cc np fuel rest line (acc ++ [Token.RightBracket line])
    else if c = '\x7b' then lexLoop cc np fuel rest line (acc ++ [Token.LeftBrace line])
    else if c = '\x7d' then lexLoop cc np fuel rest line (acc ++ [Token.RightBrace line])
    else if c = ':' then lexLoop cc np fuel rest line (acc ++ [Token.Colon line])
    else if c = ',' then lexLoop cc np fuel rest line (acc ++ [Token.Comma line])
    else if c = '"' then
      match scanString rest line with
      | some r => lexLoop cc np fuel r.2.2 r.2.1 (acc ++ [Token.Str (String.mk r.1) line])
      | none =>
        some (.error (.UnterminatedString ("Unterminated string at line: " ++ toString line)))
    else if c = ' ' then lexLoop cc np fuel rest line acc
    else if c = '\r' then lexLoop cc np fuel rest line acc
    else if c = '\t' then lexLoop cc np fuel rest line acc
    else if c = '\n' then lexLoop cc np fuel rest (line + 1) acc
    else if cc.isAlphabetic c then
      if String.mk (c :: rest.takeWhile (identCont cc)) = "true" then
        lexLoop cc np fuel (rest.dropWhile (identCont cc)) line (acc ++ [Token.Bool true line])
      else if String.mk (c :: rest.takeWhile (identCont cc)) = "false" then
        lexLoop cc np fuel (rest.dropWhile (identCont cc)) line (acc ++ [Token.Bool false line])
      else if String.mk (c :: rest.takeWhile (identCont cc)) = "null" then
        lexLoop cc np fuel (rest.dropWhile (identCont cc)) line (acc ++ [Token.Null line])
      else
        some (.error (.UnknownLiteral
          ("Unknown literal \x27" ++ String.mk (c :: rest.takeWhile (identCont cc)) ++
            "\x27 at line: " ++ toString line)))
    else if cc.isNumericChar c || c = '+' || c = '-' then
      match np (String.mk (c :: rest.takeWhile (numCont cc))) with
      | some q =>
        lexLoop cc np fuel (rest.dropWhile (numCont cc)) line (acc ++ [Token.Number q line])
      | none =>
        some (.error (.InvalidNumber
          ("Invalid number " ++ String.mk (c :: rest.takeWhile (numCont cc)) ++
            " at line: " ++ toString line)))
    else
      some (.error (.UnknownSymbol
        ("Unknown symbol " ++ String.mk [c] ++ " at line: " ++ toString line)))

/-- Lexer::lex on a whole source string: the loop starts on line 1 with an
empty token vector and enough fuel for every character. -/
def lex (cc : CharClass) (np : String → Option Rat) (source : String) :
    Option (Except LexError (List Token)) :=
  lexLoop cc np (source.length + 1) source.data 1 []

/-- Models the platform float-text parser (the str parse call to f64 in the
Rust number branch) on unsigned decimal integer literals, the only numeric
shapes exercised by the concrete inputs of this development; other shapes
are left unrecognised.  The lexer takes the parser as the parameter np, so
every universally quantified theorem holds for any parser, the Rust one
included. -/
def npDec : String → Option Rat :=
  fun s =>
    if !s.data.isEmpty && s.data.all Char.isDigit then
      some ((s.data.foldl (fun n c => n * 10 + (c.toNat - 48)) 0 : Nat) : Rat)
    else none

/-- The Value enum of src/src/parser.rs.  The Rust Dict holds a HashMap
from string keys to values; the map is modelled as an association list
with unique keys, where insertKV below implements the overwriting insert
of HashMap (iteration order of the Rust map is unspecified anyway). -/
inductive Value where
  | Dict : List (String × Value) → Value
  | List : List Value → Value
  | Bool : Bool → Value
  | Str : String → Value
  | Number : Rat → Value
  | Null : Value

/-- The ParseError enum of src/src/parser.rs; each variant carries the
formatted diagnostic string built at the error site. -/
inductive ParseError where
  | UnexpectedToken : String → ParseError
  | InvalidKey : String → ParseError
deriving DecidableEq

/-- HashMap::insert on the association-list model of the dict: a later
insert of an existing key overwrites the earlier binding. -/
def insertKV (m : List (String × Value)) (k : String) (v : Value) :
    List (String × Value) :=
  m.filter (fun p => p.1 != k) ++ [(k, v)]

/-- Lookup in the association-list model of the dict. -/
def lookupKV (m : List (String × Value)) (k : String) : Option Value :=
  (m.find? (fun p => p.1 == k)).map (fun p => p.2)

/-- Outcome of one parser routine: a result together with the final cursor
position, a parse error, the out-of-bounds vector index that would panic in
Rust, or exhausted fuel.  parse_total_in_bounds shows the last two are
unreachable on well-terminated token sequences. -/
inductive PResult (α : Type) where
  | ok : α → Nat → PResult α
  | err : ParseError → PResult α
  | oob : PResult α
  | spin : PResult α

mutual

/-- Parser::parse_value (src/src/parser.rs lines 171-203).  The cursor index
i is the position of the token about to be examined; on success the
returned index is the position of the last token of the parsed value (the
Rust routine leaves the cursor there).  Every Rust vector index
tokens[...] becomes a get? whose none case is the oob outcome.  The fuel
argument is decremented on every call and bounds the recursion; parse
below supplies enough for it never to run out on well-terminated input. -/
def parse_value : Nat → List Token → Nat → PResult Value
  | 0, _, _ => .spin
  | fuel + 1, ts, i =>
    match ts.get? i with
    | none => .oob
    | some (.Str s _) => .ok (.Str s) i
    | some (.Bool b _) => .ok (.Bool b) i
    | some (.Number n _) => .ok (.Number n) i
    | some (.Null _) => .ok .Null i
    | some (.LeftBracket _) =>
      match ts.get? (i + 1) with
      | none => .oob
      | some (.RightBracket _) => .ok (.List []) (i + 1)
      | some _ =>
        match parse_list fuel ts i [] with
        | .ok l k => .ok (.List l) k
        | .err e => .err e
        | .oob => .oob
        | .spin => .spin
    | some (.LeftBrace _) =>
      match ts.get? (i + 1) with
      | none => .oob
      | some (.RightBrace _) => .ok (.Dict []) (i + 1)
      | some _ =>
        match parse_dict fuel ts i [] with
        | .ok m k => .ok (.Dict m) k
        | .err e => .err e
        | .oob => .oob
        | .spin => .spin
    | some t => .err (.UnexpectedToken ("Unexpected token " ++ t.display))

/-- One iteration of the loop of Parser::parse_list (src/src/parser.rs lines
142-164), entered with the cursor on the separator (the opening bracket or
a comma): advance, parse one value, advance, then either continue on a
comma, close on a right bracket, or fail. -/
def parse_list : Nat → List Token → Nat → List Value → PResult (List Value)
  | 0, _, _, _ => .spin
  | fuel + 1, ts, i, acc =>
    match parse_value fuel ts (i + 1) with
    | .ok v j =>
      match ts.get? (j + 1) with
      | none => .oob
      | some (.Comma _) => parse_list fuel ts (j + 1) (acc ++ [v])
      | some (.RightBracket _) => .ok (acc ++ [v]) (j + 1)
      | some t => .err (.UnexpectedToken ("Expected \x27]\x27, got " ++ t.display))
    | .err e => .err e
    | .oob => .oob
    | .spin => .spin

/-- One iteration of the loop of Parser::parse_dict (src/src/parser.rs lines
102-139), entered with the cursor on the separator (the opening brace or a
comma): advance, expect a string key, advance, expect a colon, advance,
parse the value, advance, insert the pair, then either continue on a
comma, close on a right brace, or fail. -/
def parse_dict : Nat → List Token → Nat → List (String × Value) →
    PResult (List (String × Value))
  | 0, _, _, _ => .spin
  | fuel + 1, ts, i, acc =>
    match ts.get? (i + 1) with
    | none => .oob
    | some (.Str s _) =>
      match ts.get? (i + 2) with
      | none => .oob
      | some (.Colon _) =>
        match parse_value fuel ts (i + 3) with
        | .ok v j =>
          match ts.get? (j + 1) with
          | none => .oob
          | some (.Comma _) => parse_dict fuel ts (j + 1) (insertKV acc s v)
          | some (.RightBrace _) => .ok (insertKV acc s v) (j + 1)
          | some t => .err (.UnexpectedToken ("Expected \x27\x7d\x27, got " ++ t.display))
        | .err e => .err e
        | .oob => .oob
        | .spin => .spin
      | some t => .err (.UnexpectedToken ("Expected \x27:\x27, got " ++ t.display))
    | some t => .err (.InvalidKey ("Expected string for key, got " ++ t.display))

end

/-- Final outcome of Parser::parse: the parsed value, a parse error, or one
of the two outcomes impossible in the Rust source only by panicking or
diverging (vector index out of bounds, unbounded recursion). -/
inductive ParseOutcome where
  | ok : Value → ParseOutcome
  | err : ParseError → ParseOutcome
  | oob : ParseOutcome
  | spin : ParseOutcome

/-- Parser::parse (src/src/parser.rs lines 86-98): parse one value, advance,
and require the token there to be EOF.  The fuel supplied to parse_value
is sufficient on every well-terminated token sequence
(parse_total_in_bounds). -/
def parse (ts : List Token) : ParseOutcome :=
  match parse_value (2 * ts.length + 2) ts 0 with
  | .ok v j =>
    match ts.get? (j + 1) with
    | none => .oob
    | some (.EOF _) => .ok v
    | some t => .err (.UnexpectedToken ("Expected EOF, got " ++ t.display))
  | .err e => .err e
  | .oob => .oob
  | .spin => .spin

/-- Lexing followed by parsing, the end-to-end pipeline of the two source
files, with the ASCII classifiers and the decimal number parser. -/
def lexParse (source : String) : Option (Except LexError ParseOutcome) :=
  (lex ccAscii npDec source).map (fun r => r.map parse)

/-- The two-spaces-per-level indentation string of _pretty_print. -/
def indentStr (indent : Nat) : String :=
  String.join (List.replicate indent ("  "))

/-- The recursive s-expression printer _pretty_print of src/src/parser.rs
(lines 27-64): a dict prints as a parenthesized block of key-value pairs
with unquoted keys, a list as a parenthesized block of elements, strings
double-quoted, numbers and booleans via toString, null as the word null.
The iteration over the Rust HashMap becomes a fold over the association
list. -/
def _pretty_print (val : Value) (indent : Nat) : String :=
  match val with
  | .Dict m =>
    (m.attach.foldl
      (fun result p =>
        result ++ "\n" ++ indentStr indent ++ "  (" ++ p.1.1 ++ " " ++
          _pretty_print p.1.2 (indent + 1) ++ ")")
      ("(")) ++ "\n" ++ indentStr indent ++ ")"
  | .List l =>
    (l.attach.foldl
      (fun result p =>
        result ++ "\n" ++ indentStr indent ++ "  " ++ _pretty_print p.1 (indent + 1))
      ("(")) ++ "\n" ++ indentStr indent ++ ")"
  | .Str s => "\"" ++ s ++ "\""
  | .Number n => toString n
  | .Bool b => toString b
  | .Null => "null"
termination_by sizeOf val
decreasing_by
  all_goals
    have h1 := List.sizeOf_lt_of_mem p.2
    simp only [Value.Dict.sizeOf_spec, Value.List.sizeOf_spec]
    try
      have h2 : sizeOf p.1.2 < sizeOf p.1 := by
        have he : p.1 = (p.1.1, p.1.2) := rfl
        rw [he]
        simp only [Prod.mk.sizeOf_spec]
        omega
    omega

/-- pretty_print of src/src/parser.rs: the printer started at indent 0. -/
def pretty_print (value : Value) : String :=
  _pretty_print value 0

/-- Well-terminated token sequences: the boolean image of the token list
under the EOF test is a block of false followed by a single true, i.e. the
last token is EOF and no other token is.  This is the shape Lexer::lex
always produces (lex_single_trailing_eof). -/
def wfTokens (ts : List Token) : Prop :=
  ts.map tokenIsEOF = List.replicate (ts.length - 1) false ++ [true]

/-- A later binding for a key shadows every earlier one in the
association-list model of the dict. -/
lemma lookupKV_insertKV : ∀ m k v, lookupKV (insertKV m k v) k = some v := by
  intro m k v
  unfold lookupKV insertKV
  rw [List.find?_append]
  have h1 : (m.filter (fun p => p.1 != k)).find? (fun p => p.1 == k) = none := by
    rw [List.find?_eq_none]
    intro p hp
    have := List.of_mem_filter hp
    simp_all
  rw [h1]
  simp

/-- C1: the claim reads the escape branch of Lexer::lex as a two-character
escape that consumes the escaped character, so that the six-character
input quote a backslash n b quote lexes to the three-character string a,
newline, b.  The code only peeks at the character after the backslash and
never consumes it, so that character is processed again by the next loop
iteration: the same input lexes to the four-character string a, newline,
n, b.  This theorem evaluates the embedded lexer at that failing input. -/
theorem lex_escape_char_not_consumed :
    lex ccAscii npDec ("\"a\\nb\"") =
      some (.ok [Token.Str ("a\nnb") 1, Token.EOF 1]) := rfl

/-- C2: the claim says a double quote preceded by a backslash does not
terminate a string literal, so the four-character input quote backslash
quote quote lexes to one Str token holding a single quote character.
Because the escape branch does not consume the peeked character, the
escaped quote does terminate the first string, and the final quote then
opens a second string that hits end of input: the code fails with
UnterminatedString instead of succeeding.  This theorem evaluates the
embedded lexer at that failing input. -/
theorem lex_escaped_quote_terminates :
    lex ccAscii npDec ("\"\\\"\"") =
      some (.error (.UnterminatedString ("Unterminated string at line: 1"))) := rfl

/-- C6: the claim says any input whose string literal is never closed by an
unescaped quote fails with UnterminatedString naming the opening line.  On
the three-character input quote backslash quote, the only quote after the
opening one is escaped, so the claim requires the UnterminatedString
error; the code instead treats that escaped quote as the terminator and
succeeds, returning a Str token.  This theorem evaluates the embedded
lexer at that failing input. -/
theorem lex_unterminated_escaped_quote :
    lex ccAscii npDec ("\"\\\"") =
      some (.ok [Token.Str ("\"") 1, Token.EOF 1]) := rfl

/-- C8: the source "[]" parses to the empty List value and the source of an
opening and closing brace parses to the empty Dict value, through the
lookahead special case of parse_value that returns without entering the
general element loop. -/
theorem parse_empty_containers :
    lexParse ("[]") = some (.ok (.ok (.List []))) ∧
    lexParse ("\x7b\x7d") = some (.ok (.ok (.Dict []))) :=
  ⟨rfl, rfl⟩

/-- C9: duplicate dict keys follow last-write-wins: an insert of an existing
key overwrites the earlier binding, and the source naming key a twice,
first 1 then 2, parses to a Dict with exactly the single entry mapping a
to the number 2. -/
theorem parse_duplicate_keys_last_wins :
    (∀ m k v, lookupKV (insertKV m k v) k = some v) ∧
    lexParse ("\x7b\"a\":1,\"a\":2\x7d") =
      some (.ok (.ok (.Dict [(("a"), .Number 2)]))) :=
  ⟨lookupKV_insertKV, rfl⟩

/-- C10: the pretty printer is a total function of the value tree: it
returns a string on every Value, equal trees render equally, and the
atoms String, Number, Bool and Null have fixed formatting independent of
the indentation level. -/
theorem pretty_print_total_deterministic :
    (∀ v : Value, ∃ s, pretty_print v = s) ∧
    (∀ v w : Value, v = w → pretty_print v = pretty_print w) ∧
    (∀ s ind, _pretty_print (.Str s) ind = "\"" ++ s ++ "\"") ∧
    (∀ q ind, _pretty_print (.Number q) ind = toString q) ∧
    (∀ b ind, _pretty_print (.Bool b) ind = toString b) ∧
    (∀ ind, _pretty_print .Null ind = "null") := by
  refine ⟨fun v => ⟨_, rfl⟩, fun v w h => by rw [h], ?_, ?_, ?_, ?_⟩
  · intro s ind
    simp [_pretty_print]
  · intro q ind
    simp [_pretty_print]
  · intro b ind
    simp [_pretty_print]
  · intro ind
    simp [_pretty_print]

/-- Witness for pretty_print_total_deterministic: the determinism conjunct
applied at the Null value with its hypothesis discharged by rfl. -/
theorem pretty_print_total_deterministic_witness :
    pretty_print Value.Null = pretty_print Value.Null :=
  pretty_print_total_deterministic.2.1 Value.Null Value.Null rfl

/-- C7: the top-level parse accepts exactly one value and nothing after it:
whenever parse_value succeeds with the cursor left on position j, parse
succeeds precisely when position j plus one holds the EOF token; a non-EOF
token there yields the UnexpectedToken error naming it, and the
end-to-end pipeline on the source 1 2 fails with UnexpectedToken. -/
theorem parse_requires_trailing_eof :
    (∀ ts v j, parse_value (2 * ts.length + 2) ts 0 = .ok v j →
      ((∃ w, parse ts = .ok w) ↔ (∃ l, ts.get? (j + 1) = some (.EOF l)))) ∧
    (∀ ts v j t, parse_value (2 * ts.length + 2) ts 0 = .ok v j →
      ts.get? (j + 1) = some t → tokenIsEOF t = false →
      parse ts = .err (.UnexpectedToken ("Expected EOF, got " ++ t.display))) ∧
    lexParse ("1 2") =
      some (.ok (.err (.UnexpectedToken ("Expected EOF, got \x272\x27 at line: 1")))) := by
  refine ⟨?_, ?_, rfl⟩
  · intro ts v j h
    unfold parse
    rw [h]
    cases hg : ts.get? (j + 1) with
    | none =>
      rw [List.get?_eq_getElem?] at hg
      simp [hg]
    | some t =>
      rw [List.get?_eq_getElem?] at hg
      cases t <;> simp [hg]
  · intro ts v j t h hg ht
    unfold parse
    rw [h]
    rw [List.get?_eq_getElem?] at hg
    cases t <;> simp_all [tokenIsEOF]

/-- Witness for parse_requires_trailing_eof: its second conjunct applied to
the token sequence of the source 1 2, whose trailing Number token makes
parse fail with UnexpectedToken. -/
theorem parse_requires_trailing_eof_witness :
    parse [Token.Number 1 1, Token.Number 2 1, Token.EOF 1] =
      .err (.UnexpectedToken ("Expected EOF, got \x272\x27 at line: 1")) :=
  parse_requires_trailing_eof.2.1 [Token.Number 1 1, Token.Number 2 1, Token.EOF 1]
    (.Number 1) 0 (Token.Number 2 1) rfl rfl rfl

/-- Pushing one non-EOF token onto the accumulator preserves the shape of a
successful lexer run. -/
lemma shape_step (acc : List Token) (tok : Token) (tl : List Token) (l : Nat)
    (htok : tokenIsEOF tok = false) (hfree : ∀ t ∈ tl, tokenIsEOF t = false) :
    ∃ tl' l', (acc ++ [tok]) ++ (tl ++ [Token.EOF l]) = acc ++ (tl' ++ [Token.EOF l']) ∧
      ∀ t ∈ tl', tokenIsEOF t = false := by
  refine ⟨tok :: tl, l, by simp, ?_⟩
  intro t ht
  rcases List.mem_cons.mp ht with h | h
  · exact h ▸ htok
  · exact hfree t h

/-- Dropping a prefix never lengthens a list. -/
lemma dropWhile_length_le (p : Char → Bool) (l : List Char) :
    (l.dropWhile p).length ≤ l.length := by
  induction l with
  | nil => simp [List.dropWhile]
  | cons c rest ih =>
    rw [List.dropWhile_cons]
    by_cases h : p c
    · simp only [h, if_true]
      exact le_trans ih (Nat.le_succ _)
    · simp [h]

/-- The string scan never decreases the line counter and always consumes at
least the closing quote. -/
lemma scanString_spec : ∀ cs line out, scanString cs line = some out →
    line ≤ out.2.1 ∧ out.2.2.length < cs.length := by
  intro cs
  induction cs with
  | nil =>
    intro line out h
    simp [scanString] at h
  | cons c rest ih =>
    intro line out h
    simp only [scanString] at h
    by_cases h1 : c = '\n'
    · rw [if_pos h1, Option.map_eq_some'] at h
      obtain ⟨r, hr, hout⟩ := h
      have hi := ih (line + 1) r hr
      subst hout
      exact ⟨le_trans (Nat.le_succ line) hi.1, lt_trans hi.2 (Nat.lt_succ_self _)⟩
    rw [if_neg h1] at h
    by_cases h2 : c = '\\'
    · rw [if_pos h2] at h
      cases hh : rest.head? with
      | none =>
        simp only [hh] at h
        have hi := ih line out h
        exact ⟨hi.1, lt_trans hi.2 (Nat.lt_succ_self _)⟩
      | some d =>
        simp only [hh, Option.map_eq_some'] at h
        obtain ⟨r, hr, hout⟩ := h
        have hi := ih line r hr
        subst hout
        exact ⟨hi.1, lt_trans hi.2 (Nat.lt_succ_self _)⟩
    rw [if_neg h2] at h
    by_cases h3 : c = '"'
    · rw [if_pos h3] at h
      cases h
      exact ⟨le_refl _, Nat.lt_succ_self _⟩
    rw [if_neg h3, Option.map_eq_some'] at h
    obtain ⟨r, hr, hout⟩ := h
    have hi := ih line r hr
    subst hout
    exact ⟨hi.1, lt_trans hi.2 (Nat.lt_succ_self _)⟩

/-- One iteration of the lexer loop on a non-empty input either pushes one
token whose line annotation is the current counter and which is not EOF,
pushes nothing, or stops with an error; the recursive calls never shrink
the line counter and never grow the remaining input. -/
lemma lexLoop_cons_step (cc : CharClass) (np : String → Option Rat)
    (fuel : Nat) (c : Char) (rest : List Char) (line : Nat) (acc : List Token) :
    (∃ tok rest₂ line₂, tokenIsEOF tok = false ∧ Token.line tok = line ∧
      line ≤ line₂ ∧ rest₂.length ≤ rest.length ∧
      lexLoop cc np (fuel + 1) (c :: rest) line acc =
        lexLoop cc np fuel rest₂ line₂ (acc ++ [tok])) ∨
    (∃ rest₂ line₂, line ≤ line₂ ∧ rest₂.length ≤ rest.length ∧
      lexLoop cc np (fuel + 1) (c :: rest) line acc =
        lexLoop cc np fuel rest₂ line₂ acc) ∨
    (∃ e, lexLoop cc np (fuel + 1) (c :: rest) line acc = some (.error e)) := by
  rw [lexLoop.eq_3]
  by_cases h1 : c = '['
  · rw [if_pos h1]
    exact Or.inl ⟨Token.LeftBracket line, rest, line, rfl, rfl, le_refl _, le_refl _, rfl⟩
  rw [if_neg h1]
  by_cases h2 : c = ']'
  · rw [if_pos h2]
    exact Or.inl ⟨Token.RightBracket line, rest, line, rfl, rfl, le_refl _, le_refl _, rfl⟩
  rw [if_neg h2]
  by_cases h3 : c = '\x7b'
  · rw [if_pos h3]
    exact Or.inl ⟨Token.LeftBrace line, rest, line, rfl, rfl, le_refl _, le_refl _, rfl⟩
  rw [if_neg h3]
  by_cases h4 : c = '\x7d'
  · rw [if_pos h4]
    exact Or.inl ⟨Token.RightBrace line, rest, line, rfl, rfl, le_refl _, le_refl _, rfl⟩
  rw [if_neg h4]
  by_cases h5 : c = ':'
  · rw [if_pos h5]
    exact Or.inl ⟨Token.Colon line, rest, line, rfl, rfl, le_refl _, le_refl _, rfl⟩
  rw [if_neg h5]
  by_cases h6 : c = ','
  · rw [if_pos h6]
    exact Or.inl ⟨Token.Comma line, rest, line, rfl, rfl, le_refl _, le_refl _, rfl⟩
  rw [if_neg h6]
  by_cases h7 : c = '"'
  · rw [if_pos h7]
    cases hscan : scanString rest line with
    | none =>
      exact Or.inr (Or.inr ⟨_, rfl⟩)
    | some r =>
      have hs := scanString_spec rest line r hscan
      exact Or.inl ⟨Token.Str (String.mk r.1) line, r.2.2, r.2.1, rfl, rfl, hs.1,
        le_of_lt hs.2, rfl⟩
  rw [if_neg h7]
  by_cases h8 : c = ' '
  · rw [if_pos h8]
    exact Or.inr (Or.inl ⟨rest, line, le_refl _, le_refl _, rfl⟩)
  rw [if_neg h8]
  by_cases h9 : c = '\r'
  · rw [if_pos h9]
    exact Or.inr (Or.inl ⟨rest, line, le_refl _, le_refl _, rfl⟩)
  rw [if_neg h9]
  by_cases h10 : c = '\t'
  · rw [if_pos h10]
    exact Or.inr (Or.inl ⟨rest, line, le_refl _, le_refl _, rfl⟩)
  rw [if_neg h10]
  by_cases h11 : c = '\n'
  · rw [if_pos h11]
    exact Or.inr (Or.inl ⟨rest, line + 1, Nat.le_succ _, le_refl _, rfl⟩)
  rw [if_neg h11]
  by_cases h12 : cc.isAlphabetic c = true
  · rw [if_pos h12]
    by_cases h13 : String.mk (c :: rest.takeWhile (identCont cc)) = "true"
    · rw [if_pos h13]
      exact Or.inl ⟨Token.Bool true line, rest.dropWhile (identCont cc), line, rfl, rfl,
        le_refl _, dropWhile_length_le _ _, rfl⟩
    rw [if_neg h13]
    by_cases h14 : String.mk (c :: rest.takeWhile (identCont cc)) = "false"
    · rw [if_pos h14]
      exact Or.inl ⟨Token.Bool false line, rest.dropWhile (identCont cc), line, rfl, rfl,
        le_refl _, dropWhile_length_le _ _, rfl⟩
    rw [if_neg h14]
    by_cases h15 : String.mk (c :: rest.takeWhile (identCont cc)) = "null"
    · rw [if_pos h15]
      exact Or.inl ⟨Token.Null line, rest.dropWhile (identCont cc), line, rfl, rfl,
        le_refl _, dropWhile_length_le _ _, rfl⟩
    rw [if_neg h15]
    exact Or.inr (Or.inr ⟨_, rfl⟩)
  rw [if_neg h12]
  by_cases h16 : (cc.isNumericChar c || c = '+' || c = '-') = true
  · rw [if_pos h16]
    cases hnp : np (String.mk (c :: rest.takeWhile (numCont cc))) with
    | none =>
      exact Or.inr (Or.inr ⟨_, rfl⟩)
    | some q =>
      exact Or.inl ⟨Token.Number q line, rest.dropWhile (numCont cc), line, rfl, rfl,
        le_refl _, dropWhile_length_le _ _, rfl⟩
  rw [if_neg h16]
  exact Or.inr (Or.inr ⟨_, rfl⟩)

/-- The fuel supplied by lex is always sufficient: every loop iteration
consumes at least one character, so with more fuel than characters the
lexer never runs out. -/
lemma lexLoop_total (cc : CharClass) (np : String → Option Rat) :
    ∀ fuel cs line acc, cs.length < fuel →
      lexLoop cc np fuel cs line acc ≠ none := by
  intro fuel
  induction fuel with
  | zero =>
    intro cs line acc h
    omega
  | succ fuel ih =>
    intro cs line acc h
    cases cs with
    | nil => simp [lexLoop]
    | cons c rest =>
      simp only [List.length_cons] at h
      rcases lexLoop_cons_step cc np fuel c rest line acc with
        ⟨tok, r₂, l₂, _, _, _, hlen, heq⟩ | ⟨r₂, l₂, _, hlen, heq⟩ | ⟨e, heq⟩
      · rw [heq]
        exact ih _ _ _ (by omega)
      · rw [heq]
        exact ih _ _ _ (by omega)
      · rw [heq]
        simp

/-- Lexer::lex never exhausts its fuel on any source string. -/
lemma lex_total (cc : CharClass) (np : String → Option Rat) (source : String) :
    lex cc np source ≠ none :=
  lexLoop_total cc np (source.length + 1) source.data 1 [] (Nat.lt_succ_self _)

/-- Every successful run of the lexer loop extends the accumulated tokens
with a block of EOF-free tokens followed by one final EOF token. -/
lemma lexLoop_ok_shape (cc : CharClass) (np : String → Option Rat) :
    ∀ fuel cs line acc toks, lexLoop cc np fuel cs line acc = some (.ok toks) →
      ∃ tl l, toks = acc ++ (tl ++ [Token.EOF l]) ∧ ∀ t ∈ tl, tokenIsEOF t = false := by
  intro fuel
  induction fuel with
  | zero =>
    intro cs line acc toks h
    simp [lexLoop] at h
  | succ fuel ih =>
    intro cs line acc toks h
    cases cs with
    | nil =>
      simp [lexLoop] at h
      subst h
      exact ⟨[], line, by simp, by simp⟩
    | cons c rest =>
      rcases lexLoop_cons_step cc np fuel c rest line acc with
        ⟨tok, r₂, l₂, hfree, _, _, _, heq⟩ | ⟨r₂, l₂, _, _, heq⟩ | ⟨e, heq⟩
      · rw [heq] at h
        obtain ⟨tl, l, htoks, hrest⟩ := ih _ _ _ _ h
        rw [htoks]
        exact shape_step _ _ _ _ hfree hrest
      · rw [heq] at h
        exact ih _ _ _ _ h
      · rw [heq] at h
        simp at h

/-- C4: every successful lexing run produces a non-empty token sequence
whose final element is the EOF token and which contains no other EOF
token, for any character classifier and any number parser; the empty
input yields exactly one EOF token tagged with line 1. -/
theorem lex_single_trailing_eof :
    (∀ cc np source toks, lex cc np source = some (.ok toks) →
      toks ≠ [] ∧ (∃ l, toks.getLast? = some (Token.EOF l)) ∧
      (∀ i t, toks.get? i = some t → tokenIsEOF t = true → i = toks.length - 1)) ∧
    (∀ cc np, lex cc np ("") = some (.ok [Token.EOF 1])) := by
  constructor
  · intro cc np source toks h
    obtain ⟨tl, l, htoks, hfree⟩ := lexLoop_ok_shape cc np _ _ _ _ _ h
    rw [List.nil_append] at htoks
    subst htoks
    refine ⟨by simp, ⟨l, List.getLast?_concat _⟩, ?_⟩
    intro i t hget hEOF
    by_cases hi : i < tl.length
    · rw [List.get?_append hi] at hget
      have hmem : t ∈ tl := List.get?_mem hget
      rw [hfree t hmem] at hEOF
      cases hEOF
    · have hlen : i < tl.length + 1 := by
        by_contra hc
        push_neg at hc
        rw [List.get?_eq_none.mpr (by simpa using hc)] at hget
        cases hget
      simp only [List.length_append, List.length_singleton]
      omega
  · intro cc np
    rfl

/-- Witness for lex_single_trailing_eof: its first conjunct applied to the
source null, whose successful lexing is discharged by rfl. -/
theorem lex_single_trailing_eof_witness :
    (lex ccAscii npDec ("null") = some (.ok [Token.Null 1, Token.EOF 1])) ∧
    ([Token.Null 1, Token.EOF 1] ≠ [] ∧
      (∃ l, [Token.Null 1, Token.EOF 1].getLast? = some (Token.EOF l)) ∧
      (∀ i t, [Token.Null 1, Token.EOF 1].get? i = some t → tokenIsEOF t = true →
        i = [Token.Null 1, Token.EOF 1].length - 1)) :=
  ⟨rfl, lex_single_trailing_eof.1 ccAscii npDec ("null") _ rfl⟩

/-- Appending one token whose line is an upper bound of the accumulated
lines keeps the mapped line sequence sorted. -/
lemma chain'_map_line_snoc (acc : List Token) (tok : Token) (line : Nat)
    (hb : ∀ t ∈ acc, Token.line t ≤ line)
    (hc : List.Chain' (· ≤ ·) (acc.map Token.line))
    (ht : Token.line tok = line) :
    List.Chain' (· ≤ ·) ((acc ++ [tok]).map Token.line) := by
  rw [List.map_append, List.chain'_append]
  refine ⟨hc, by simp, ?_⟩
  intro x hx y hy
  simp only [List.map_cons, List.map_nil, List.head?_cons, Option.mem_some_iff] at hy
  subst hy
  have hx' : x ∈ acc.map Token.line := List.mem_of_mem_getLast? hx
  obtain ⟨t, ht', rfl⟩ := List.mem_map.mp hx'
  rw [ht]
  exact hb t ht'

/-- Monotone-lines invariant of the lexer loop: if all accumulated tokens
carry lines bounded by the current counter and are already sorted, any
successful run stays sorted. -/
lemma lexLoop_mono (cc : CharClass) (np : String → Option Rat) :
    ∀ fuel cs line acc toks,
      (∀ t ∈ acc, Token.line t ≤ line) →
      List.Chain' (· ≤ ·) (acc.map Token.line) →
      lexLoop cc np fuel cs line acc = some (.ok toks) →
      List.Chain' (· ≤ ·) (toks.map Token.line) := by
  intro fuel
  induction fuel with
  | zero =>
    intro cs line acc toks _ _ h
    simp [lexLoop] at h
  | succ fuel ih =>
    intro cs line acc toks hb hc h
    cases cs with
    | nil =>
      simp [lexLoop] at h
      subst h
      exact chain'_map_line_snoc acc (Token.EOF line) line hb hc rfl
    | cons c rest =>
      rcases lexLoop_cons_step cc np fuel c rest line acc with
        ⟨tok, r₂, l₂, _, htline, hle, _, heq⟩ | ⟨r₂, l₂, hle, _, heq⟩ | ⟨e, heq⟩
      · rw [heq] at h
        refine ih _ _ _ _ ?_ ?_ h
        · intro t ht
          rcases List.mem_append.mp ht with h' | h'
          · exact le_trans (hb t h') hle
          · simp only [List.mem_singleton] at h'
            subst h'
            rw [htline]
            exact hle
        · exact chain'_map_line_snoc acc tok line hb hc htline
      · rw [heq] at h
        refine ih _ _ _ _ ?_ hc h
        intro t ht
        exact le_trans (hb t ht) hle
      · rw [heq] at h
        simp at h

/-- C5: for every input on which lexing succeeds, the line annotations of
the produced tokens are monotonically non-decreasing in emission order,
for any classifier and number parser; and a multi-line string literal is
annotated with the line of its opening quote even though the counter has
moved past it, as the concrete two-line source shows. -/
theorem lex_lines_monotone :
    (∀ cc np source toks, lex cc np source = some (.ok toks) →
      List.Chain' (· ≤ ·) (toks.map Token.line)) ∧
    lex ccAscii npDec ("\"a\nb\"\ntrue") =
      some (.ok [Token.Str ("a\nb") 1, Token.Bool true 3, Token.EOF 3]) := by
  constructor
  · intro cc np source toks h
    exact lexLoop_mono cc np _ _ _ _ _ (by simp) (by simp) h
  · rfl

/-- Witness for lex_lines_monotone: its first conjunct applied to the
two-line source containing a multi-line string literal. -/
theorem lex_lines_monotone_witness :
    (lex ccAscii npDec ("\"a\nb\"\ntrue") =
      some (.ok [Token.Str ("a\nb") 1, Token.Bool true 3, Token.EOF 3])) ∧
    List.Chain' (· ≤ ·)
      ([Token.Str ("a\nb") 1, Token.Bool true 3, Token.EOF 3].map Token.line) :=
  ⟨rfl, lex_lines_monotone.1 ccAscii npDec ("\"a\nb\"\ntrue") _ rfl⟩

/-- Every index strictly below the length has a token. -/
lemma get?_exists {ts : List Token} {i : Nat} (h : i < ts.length) :
    ∃ t, ts.get? i = some t := by
  cases hg : ts.get? i with
  | none =>
    rw [List.get?_eq_none] at hg
    omega
  | some t => exact ⟨t, rfl⟩

/-- A well-terminated token sequence is non-empty. -/
lemma wf_ne_nil {ts : List Token} (hwf : wfTokens ts) : ts ≠ [] := by
  intro hnil
  subst hnil
  unfold wfTokens at hwf
  simp at hwf

/-- In a well-terminated token sequence, any non-EOF token sits strictly
before the final position, so the position after it is still in bounds. -/
lemma wf_after {ts : List Token} (hwf : wfTokens ts) {i : Nat} {t : Token}
    (hget : ts.get? i = some t) (ht : tokenIsEOF t = false) : i + 1 < ts.length := by
  have hi : i < ts.length := by
    by_contra hc
    push_neg at hc
    rw [List.get?_eq_none.mpr hc] at hget
    cases hget
  by_contra hc
  push_neg at hc
  have hieq : i = ts.length - 1 := by omega
  have hm : (ts.map tokenIsEOF).get? i = some false := by
    rw [List.get?_map, hget]
    simp [ht]
  unfold wfTokens at hwf
  rw [hwf, List.get?_append_right (by simp [hieq])] at hm
  subst hieq
  simp at hm

/-- Cursor-bound invariant of the three parser routines, by induction on
the fuel: on a well-terminated token sequence, with the cursor in bounds
and enough fuel, none of them runs out of fuel or indexes out of bounds,
and on success the cursor lands on a position whose successor is still in
bounds. -/
lemma parser_inv : ∀ fuel,
    (∀ ts i, wfTokens ts → i < ts.length → 2 * (ts.length - i) + 2 ≤ fuel →
      parse_value fuel ts i ≠ .oob ∧ parse_value fuel ts i ≠ .spin ∧
      ∀ v j, parse_value fuel ts i = .ok v j → i ≤ j ∧ j + 1 < ts.length) ∧
    (∀ ts i acc, wfTokens ts → i + 1 < ts.length → 2 * (ts.length - i) + 1 ≤ fuel →
      parse_list fuel ts i acc ≠ .oob ∧ parse_list fuel ts i acc ≠ .spin ∧
      ∀ l k, parse_list fuel ts i acc = .ok l k → i ≤ k ∧ k + 1 < ts.length) ∧
    (∀ ts i acc, wfTokens ts → i + 1 < ts.length → 2 * (ts.length - i) + 1 ≤ fuel →
      parse_dict fuel ts i acc ≠ .oob ∧ parse_dict fuel ts i acc ≠ .spin ∧
      ∀ m k, parse_dict fuel ts i acc = .ok m k → i ≤ k ∧ k + 1 < ts.length) := by
  intro fuel
  induction fuel with
  | zero =>
    refine ⟨?_, ?_, ?_⟩
    · intro ts i hwf hi hfuel
      exact absurd hfuel (by omega)
    · intro ts i acc hwf hi hfuel
      exact absurd hfuel (by omega)
    · intro ts i acc hwf hi hfuel
      exact absurd hfuel (by omega)
  | succ fuel ih =>
    obtain ⟨ihv, ihl, ihd⟩ := ih
    refine ⟨?_, ?_, ?_⟩
    · intro ts i hwf hi hfuel
      obtain ⟨t, hget⟩ := get?_exists hi
      simp only [parse_value]
      rw [hget]
      cases t
      case Str s l =>
        refine ⟨by simp, by simp, fun v j hok => ?_⟩
        cases hok
        exact ⟨le_refl _, wf_after hwf hget rfl⟩
      case Number q l =>
        refine ⟨by simp, by simp, fun v j hok => ?_⟩
        cases hok
        exact ⟨le_refl _, wf_after hwf hget rfl⟩
      case Bool b l =>
        refine ⟨by simp, by simp, fun v j hok => ?_⟩
        cases hok
        exact ⟨le_refl _, wf_after hwf hget rfl⟩
      case Null l =>
        refine ⟨by simp, by simp, fun v j hok => ?_⟩
        cases hok
        exact ⟨le_refl _, wf_after hwf hget rfl⟩
      case LeftBracket l =>
        have hi1 : i + 1 < ts.length := wf_after hwf hget rfl
        obtain ⟨t2, hget2⟩ := get?_exists hi1
        rw [hget2]
        have hrecl := ihl ts i [] hwf hi1 (by omega)
        cases t2
        case RightBracket l2 =>
          refine ⟨by simp, by simp, fun v j hok => ?_⟩
          cases hok
          exact ⟨Nat.le_succ _, wf_after hwf hget2 rfl⟩
        all_goals
          cases hpl : parse_list fuel ts i [] with
          | ok lst k =>
            obtain ⟨hik, hk1⟩ := hrecl.2.2 lst k hpl
            refine ⟨by simp, by simp, fun v j hok => ?_⟩
            cases hok
            exact ⟨hik, hk1⟩
          | err e => exact ⟨by simp, by simp, fun v j hok => by cases hok⟩
          | oob => exact absurd hpl hrecl.1
          | spin => exact absurd hpl hrecl.2.1
      case LeftBrace l =>
        have hi1 : i + 1 < ts.length := wf_after hwf hget rfl
        obtain ⟨t2, hget2⟩ := get?_exists hi1
        rw [hget2]
        have hrecd := ihd ts i [] hwf hi1 (by omega)
        cases t2
        case RightBrace l2 =>
          refine ⟨by simp, by simp, fun v j hok => ?_⟩
          cases hok
          exact ⟨Nat.le_succ _, wf_after hwf hget2 rfl⟩
        all_goals
          cases hpd : parse_dict fuel ts i [] with
          | ok m k =>
            obtain ⟨hik, hk1⟩ := hrecd.2.2 m k hpd
            refine ⟨by simp, by simp, fun v j hok => ?_⟩
            cases hok
            exact ⟨hik, hk1⟩
          | err e => exact ⟨by simp, by simp, fun v j hok => by cases hok⟩
          | oob => exact absurd hpd hrecd.1
          | spin => exact absurd hpd hrecd.2.1
      all_goals exact ⟨by simp, by simp, fun v j hok => by cases hok⟩
    · intro ts i acc hwf hi1 hfuel
      have hrecv := ihv ts (i + 1) hwf hi1 (by omega)
      simp only [parse_list]
      split
      next v j hpv =>
        obtain ⟨hij, hj1⟩ := hrecv.2.2 v j hpv
        obtain ⟨t, hgt⟩ := get?_exists hj1
        rw [hgt]
        cases t
        case Comma l =>
          have hj2 : j + 1 + 1 < ts.length := wf_after hwf hgt rfl
          have hrecl := ihl ts (j + 1) (acc ++ [v]) hwf hj2 (by omega)
          refine ⟨hrecl.1, hrecl.2.1, fun l k hok => ?_⟩
          obtain ⟨hk, hk1⟩ := hrecl.2.2 l k hok
          exact ⟨by omega, hk1⟩
        case RightBracket l =>
          refine ⟨by simp, by simp, fun l k hok => ?_⟩
          cases hok
          exact ⟨by omega, wf_after hwf hgt rfl⟩
        all_goals exact ⟨by simp, by simp, fun l k hok => by cases hok⟩
      next e hpv => exact ⟨by simp, by simp, fun l k hok => by cases hok⟩
      next hpv => exact absurd hpv hrecv.1
      next hpv => exact absurd hpv hrecv.2.1
    · intro ts i acc hwf hi1 hfuel
      simp only [parse_dict]
      split
      · rename_i hg1
        exfalso
        rw [List.get?_eq_none] at hg1
        omega
      · rename_i s l1 hg1
        split
        · rename_i hg2
          exfalso
          rw [List.get?_eq_none] at hg2
          have := wf_after hwf hg1 rfl
          omega
        · rename_i l2 hg2
          have hi3 : i + 3 < ts.length := by
            have := wf_after hwf hg2 rfl
            omega
          have hrecv := ihv ts (i + 3) hwf hi3 (by omega)
          split
          · rename_i v j hpv
            obtain ⟨hij, hj1⟩ := hrecv.2.2 v j hpv
            split
            · rename_i hg3
              exfalso
              rw [List.get?_eq_none] at hg3
              omega
            · rename_i l3 hg3
              have hj2 : j + 1 + 1 < ts.length := wf_after hwf hg3 rfl
              have hrecd := ihd ts (j + 1) (insertKV acc s v) hwf hj2 (by omega)
              refine ⟨hrecd.1, hrecd.2.1, fun m k hok => ?_⟩
              obtain ⟨hk, hk1⟩ := hrecd.2.2 m k hok
              exact ⟨by omega, hk1⟩
            · rename_i l3 hg3
              refine ⟨by simp, by simp, fun m k hok => ?_⟩
              cases hok
              exact ⟨by omega, wf_after hwf hg3 rfl⟩
            · exact ⟨by simp, by simp, fun m k hok => by cases hok⟩
          · exact ⟨by simp, by simp, fun m k hok => by cases hok⟩
          · rename_i hpv
            exact absurd hpv hrecv.1
          · rename_i hpv
            exact absurd hpv hrecv.2.1
        · exact ⟨by simp, by simp, fun m k hok => by cases hok⟩
      · exact ⟨by simp, by simp, fun m k hok => by cases hok⟩

/-- C3: on every token vector whose last element is the EOF token and which
contains no other EOF token, Parser::parse terminates with either a value
or a ParseError: the fuel never runs out and every vector index performed
at the cursor or one past it stays in bounds, so the out-of-bounds panic
outcome is unreachable. -/
theorem parse_total_in_bounds (ts : List Token) (hwf : wfTokens ts) :
    (∃ v, parse ts = .ok v) ∨ (∃ e, parse ts = .err e) := by
  have hne : ts ≠ [] := wf_ne_nil hwf
  have h0 : 0 < ts.length := List.length_pos.mpr hne
  have hv := (parser_inv (2 * ts.length + 2)).1 ts 0 hwf h0 (by omega)
  unfold parse
  split
  · rename_i v j hpv
    obtain ⟨hij, hj1⟩ := hv.2.2 v j hpv
    obtain ⟨t, hget⟩ := get?_exists hj1
    rw [hget]
    cases t <;> simp
  · rename_i e hpv
    exact Or.inr ⟨e, rfl⟩
  · rename_i hpv
    exact absurd hpv hv.1
  · rename_i hpv
    exact absurd hpv hv.2.1

/-- Witness for parse_total_in_bounds: the two-token sequence of a Null
atom followed by EOF is well terminated and parses without panic. -/
theorem parse_total_in_bounds_witness :
    wfTokens [Token.Null 1, Token.EOF 1] ∧
    ((∃ v, parse [Token.Null 1, Token.EOF 1] = .ok v) ∨
      (∃ e, parse [Token.Null 1, Token.EOF 1] = .err e)) :=
  ⟨rfl, parse_total_in_bounds [Token.Null 1, Token.EOF 1] rfl⟩

end JsonParser
